import Mathlib

/-!
Verification of the RAG indexing and hybrid-retrieval engine of this
repository (src/rag/mod.rs) against its natural-language specification.

The Rust code is shallowly embedded: pure functions become Lean functions,
`usize` values become `Nat` with explicit `% 2 ^ 64` where wrapping matters,
`f32` score arithmetic is embedded as exact rationals (`ℚ`) except where a
claim is specifically about IEEE-754 special values, in which case a small
float model `Flt` with infinities and NaN is used, and fallible Rust code
returns `Except`.  External collaborators (the embedding client, the file
loader, the directory lister, the HNSW library) are modelled as explicit
function parameters with the contracts the specification assigns to them.
-/

/-! ### Vector identifiers (src/rag/mod.rs, `combine_vector_id` / `split_vector_id`)

`VectorID` is `usize`; the target has 64-bit pointers, so `usize::BITS = 64`.
Values are naturals below `2 ^ 64`; the left shift in `combine_vector_id`
wraps, which the embedding makes explicit with `% 2 ^ 64`.
-/

def usizeBits : ℕ := 64

abbrev VectorID := ℕ

/-- `fn combine_vector_id(file_index: usize, document_index: usize) -> VectorID {
      file_index << (usize::BITS / 2) | document_index }` -/
def combine_vector_id (file_index document_index : ℕ) : VectorID :=
  ((file_index <<< (usizeBits / 2)) % 2 ^ usizeBits) ||| document_index

/-- `fn split_vector_id(value: VectorID) -> (usize, usize)` -/
def split_vector_id (value : VectorID) : ℕ × ℕ :=
  let low_mask := (1 <<< (usizeBits / 2)) - 1
  let low := value &&& low_mask
  let high := value >>> (usizeBits / 2)
  (high, low)

/-- A natural with only bits ≥ k set, or-ed with one below `2 ^ k`, is their sum. -/
theorem lor_mul_pow_two_add {a c k : ℕ} (hc : c < 2 ^ k) :
    ((a * 2 ^ k) ||| c) = a * 2 ^ k + c := by
  rw [Nat.mul_comm a (2 ^ k)]
  exact (Nat.mul_add_lt_is_or hc a).symm

/-- C6: for `f, c < 2 ^ 32` the packing round-trips, and the packed value
puts `f` in the high half-word and `c` in the low half-word. -/
theorem combine_split_vector_id (f c : ℕ)
    (hf : f < 2 ^ (usizeBits / 2)) (hc : c < 2 ^ (usizeBits / 2)) :
    split_vector_id (combine_vector_id f c) = (f, c) ∧
    combine_vector_id f c = f * 2 ^ (usizeBits / 2) + c := by
  have hb : usizeBits / 2 = 32 := by norm_num [usizeBits]
  rw [hb] at hf hc
  have hcombine : combine_vector_id f c = f * 2 ^ 32 + c := by
    unfold combine_vector_id
    rw [hb, usizeBits, Nat.shiftLeft_eq]
    have hmod : f * 2 ^ 32 % 2 ^ 64 = f * 2 ^ 32 := by
      apply Nat.mod_eq_of_lt
      calc f * 2 ^ 32 < 2 ^ 32 * 2 ^ 32 := by
            exact Nat.mul_lt_mul_of_lt_of_le hf (le_refl _) (by norm_num)
        _ = 2 ^ 64 := by norm_num
    rw [hmod, lor_mul_pow_two_add hc]
  refine ⟨?_, by rw [hb]; exact hcombine⟩
  rw [hcombine]
  show ((f * 2 ^ 32 + c) >>> (usizeBits / 2),
        (f * 2 ^ 32 + c) &&& ((1 <<< (usizeBits / 2)) - 1)) = (f, c)
  rw [hb]
  have h1 : (1 : ℕ) <<< 32 - 1 = 2 ^ 32 - 1 := by
    rw [Nat.shiftLeft_eq, one_mul]
  rw [h1, Nat.and_pow_two_sub_one_eq_mod, Nat.shiftRight_eq_div_pow]
  have e : (2 : ℕ) ^ 32 = 4294967296 := by norm_num
  rw [e] at hf hc ⊢
  simp only [Prod.mk.injEq]
  omega

/-- Witness for `combine_split_vector_id` at the spec's own example:
`combine_id(1, 2) = (1 <<< 32) | 2` and `split_id((3 <<< 32) | 7) = (3, 7)`. -/
theorem combine_split_vector_id_witness :
    split_vector_id (combine_vector_id 1 2) = (1, 2) ∧
    combine_vector_id 1 2 = 1 * 2 ^ (usizeBits / 2) + 2 :=
  combine_split_vector_id 1 2 (by norm_num [usizeBits]) (by norm_num [usizeBits])

/-! ### Reciprocal Rank Fusion (src/rag/mod.rs, `reciprocal_rank_fusion`)

The Rust function accumulates per-id scores in a `HashMap<VectorID, f32>`
(`*map.entry(item).or_default() += (1.0 / ((rrf_k + index + 1) as f32)) * weight`),
collects `map.into_iter()` into a `Vec` and sorts it with the stable
`sort_by(|a, b| b.1.partial_cmp(&a.1).unwrap())`, i.e. by descending score.

Scores are embedded as exact rationals (`f32` arithmetic embedded as real
arithmetic; a separate IEEE-special-value model appears further below for
the claim that is specifically about NaN/infinity).  The accumulation map
is embedded as an association list updated in insertion order; a `HashMap`'s
iteration order is unspecified, so the sorting step takes the iterated
entry list `order` as an explicit argument, constrained in the theorems to
be a permutation of the accumulated entries. -/

/-- One contribution: `(1.0 / ((rrf_k + index + 1) as f32)) * weight`. -/
def rrfContribution (weight : ℚ) (rrf_k index : ℕ) : ℚ :=
  (1 / ((rrf_k + index + 1 : ℕ) : ℚ)) * weight

/-- `*map.entry(item).or_default() += x`: add `x` to the entry of `k`,
inserting it (at the end, with default 0) when absent. -/
def rrfUpsert : List (VectorID × ℚ) → VectorID → ℚ → List (VectorID × ℚ)
  | [], k, x => [(k, x)]
  | p :: rest, k, x =>
      if p.1 = k then (k, p.2 + x) :: rest else p :: rrfUpsert rest k x

/-- The indexed accumulation loop
`for (index, &item) in ids.iter().enumerate() { ... += contribution }`. -/
def rrfAccum : List (VectorID × ℚ) → List VectorID → ℚ → ℕ → ℕ → List (VectorID × ℚ)
  | m, [], _, _, _ => m
  | m, id :: rest, w, rrf_k, index =>
      rrfAccum (rrfUpsert m id (rrfContribution w rrf_k index)) rest w rrf_k (index + 1)

/-- The accumulated score map of `reciprocal_rank_fusion`: both loops run
with `rrf_k = top_k * 2`, first over the vector ids, then the text ids. -/
def rrfEntries (vector_search_ids text_search_ids : List VectorID)
    (vector_search_weight text_search_weight : ℚ) (top_k : ℕ) : List (VectorID × ℚ) :=
  let rrf_k := top_k * 2
  rrfAccum (rrfAccum [] vector_search_ids vector_search_weight rrf_k 0)
    text_search_ids text_search_weight rrf_k 0

/-- The tail of `reciprocal_rank_fusion`: sort the iterated entries by
descending score (`Vec::sort_by` is stable, as is `List.mergeSort`), take
`top_k`, keep the ids.  `order` is the entry list produced by iterating the
`HashMap`, whose order the Rust library does not specify. -/
def reciprocal_rank_fusion (order : List (VectorID × ℚ)) (top_k : ℕ) : List VectorID :=
  ((order.mergeSort (fun a b => decide (b.2 ≤ a.2))).take top_k).map Prod.fst

/-- The specification's closed-form fused score of an id: the sum over its
zero-based ranks `i` in each list of `w / (rrf_k + i + 1)`. -/
def rrfScore (V T : List VectorID) (wv wt : ℚ) (rrf_k : ℕ) (x : VectorID) : ℚ :=
  ((Finset.range V.length).sum fun i =>
    if V[i]? = some x then wv / ((rrf_k + i + 1 : ℕ) : ℚ) else 0)
  + ((Finset.range T.length).sum fun i =>
    if T[i]? = some x then wt / ((rrf_k + i + 1 : ℕ) : ℚ) else 0)

/-- Total score stored for `x` in an association list (the sum of all
matching entries; the accumulation keeps keys unique, so this is the
stored value). -/
def scoreOf (m : List (VectorID × ℚ)) (x : VectorID) : ℚ :=
  ((m.filter fun p => p.1 = x).map Prod.snd).sum

/-- Partial-sum form of the fused score contributed by one list starting
at rank `i`. -/
def rrfScoreFrom : List VectorID → ℚ → ℕ → ℕ → VectorID → ℚ
  | [], _, _, _, _ => 0
  | id :: rest, w, rrf_k, i, x =>
      (if x = id then rrfContribution w rrf_k i else 0) + rrfScoreFrom rest w rrf_k (i + 1) x

theorem scoreOf_nil (x : VectorID) : scoreOf [] x = 0 := rfl

theorem scoreOf_cons (q : VectorID × ℚ) (rest : List (VectorID × ℚ)) (x : VectorID) :
    scoreOf (q :: rest) x = (if q.1 = x then q.2 else 0) + scoreOf rest x := by
  by_cases h : q.1 = x <;> simp [scoreOf, h]

theorem scoreOf_rrfUpsert (m : List (VectorID × ℚ)) (k : VectorID) (v : ℚ) (x : VectorID) :
    scoreOf (rrfUpsert m k v) x = scoreOf m x + (if x = k then v else 0) := by
  induction m with
  | nil =>
      rw [show rrfUpsert [] k v = [(k, v)] from rfl, scoreOf_cons]
      by_cases h : x = k
      · subst h
        rw [if_pos rfl]
        ring
      · have h' : ¬ k = x := fun hh => h hh.symm
        simp [h, h']
  | cons p rest ih =>
      by_cases hpk : p.1 = k
      · simp only [rrfUpsert, if_pos hpk]
        rw [scoreOf_cons, scoreOf_cons, hpk]
        by_cases hx : x = k
        · subst hx
          rw [if_pos rfl, if_pos rfl, if_pos rfl]
          ring
        · have hx' : ¬ k = x := fun hh => hx hh.symm
          rw [if_neg hx', if_neg hx', if_neg hx]
          ring
      · simp only [rrfUpsert, if_neg hpk]
        rw [scoreOf_cons, scoreOf_cons, ih]
        ring

theorem rrfUpsert_map_fst (m : List (VectorID × ℚ)) (k : VectorID) (v : ℚ) :
    (rrfUpsert m k v).map Prod.fst =
      if k ∈ m.map Prod.fst then m.map Prod.fst else m.map Prod.fst ++ [k] := by
  induction m with
  | nil => simp [rrfUpsert]
  | cons p rest ih =>
      by_cases hpk : p.1 = k
      · simp [rrfUpsert, hpk]
      · have : ¬ k = p.1 := fun h => hpk h.symm
        by_cases hk : k ∈ rest.map Prod.fst <;>
          simp [rrfUpsert, hpk, ih, this, hk]

theorem mem_rrfUpsert_map_fst (m : List (VectorID × ℚ)) (k : VectorID) (v : ℚ) (x : VectorID) :
    x ∈ (rrfUpsert m k v).map Prod.fst ↔ x ∈ m.map Prod.fst ∨ x = k := by
  rw [rrfUpsert_map_fst]
  by_cases hk : k ∈ m.map Prod.fst
  · simp only [if_pos hk]
    constructor
    · exact Or.inl
    · rintro (h | rfl)
      · exact h
      · exact hk
  · simp [if_neg hk]

theorem rrfUpsert_nodup (m : List (VectorID × ℚ)) (k : VectorID) (v : ℚ)
    (h : (m.map Prod.fst).Nodup) : ((rrfUpsert m k v).map Prod.fst).Nodup := by
  rw [rrfUpsert_map_fst]
  by_cases hk : k ∈ m.map Prod.fst
  · rw [if_pos hk]; exact h
  · rw [if_neg hk]
    simp [List.nodup_append, h, hk]

theorem scoreOf_rrfAccum (ids : List VectorID) (w : ℚ) (rrf_k : ℕ) :
    ∀ (m : List (VectorID × ℚ)) (i : ℕ) (x : VectorID),
      scoreOf (rrfAccum m ids w rrf_k i) x = scoreOf m x + rrfScoreFrom ids w rrf_k i x := by
  induction ids with
  | nil => intro m i x; simp [rrfAccum, rrfScoreFrom]
  | cons id rest ih =>
      intro m i x
      simp only [rrfAccum, rrfScoreFrom]
      rw [ih, scoreOf_rrfUpsert]
      ring

theorem mem_rrfAccum_map_fst (ids : List VectorID) (w : ℚ) (rrf_k : ℕ) :
    ∀ (m : List (VectorID × ℚ)) (i : ℕ) (x : VectorID),
      x ∈ (rrfAccum m ids w rrf_k i).map Prod.fst ↔ x ∈ m.map Prod.fst ∨ x ∈ ids := by
  induction ids with
  | nil => intro m i x; simp [rrfAccum]
  | cons id rest ih =>
      intro m i x
      simp only [rrfAccum]
      rw [ih, mem_rrfUpsert_map_fst]
      simp only [List.mem_cons]
      tauto

theorem rrfAccum_nodup (ids : List VectorID) (w : ℚ) (rrf_k : ℕ) :
    ∀ (m : List (VectorID × ℚ)) (i : ℕ), (m.map Prod.fst).Nodup →
      ((rrfAccum m ids w rrf_k i).map Prod.fst).Nodup := by
  induction ids with
  | nil => intro m i h; simpa [rrfAccum]
  | cons id rest ih =>
      intro m i h
      exact ih _ _ (rrfUpsert_nodup _ _ _ h)

theorem scoreOf_eq_zero {m : List (VectorID × ℚ)} {x : VectorID}
    (h : x ∉ m.map Prod.fst) : scoreOf m x = 0 := by
  induction m with
  | nil => rfl
  | cons p rest ih =>
      simp only [List.map_cons, List.mem_cons] at h
      push_neg at h
      rw [scoreOf_cons, if_neg (fun hh => h.1 hh.symm), ih h.2, add_zero]

theorem scoreOf_eq_of_mem {m : List (VectorID × ℚ)} {p : VectorID × ℚ}
    (hnd : (m.map Prod.fst).Nodup) (hp : p ∈ m) : scoreOf m p.1 = p.2 := by
  induction m with
  | nil => cases hp
  | cons q rest ih =>
      rw [List.map_cons, List.nodup_cons] at hnd
      rcases List.mem_cons.mp hp with rfl | hrest
      · rw [scoreOf_cons, if_pos rfl, scoreOf_eq_zero hnd.1, add_zero]
      · have hmem : p.1 ∈ rest.map Prod.fst := List.mem_map_of_mem Prod.fst hrest
        have hq : ¬ q.1 = p.1 := by
          intro h
          rw [← h] at hmem
          exact hnd.1 hmem
        rw [scoreOf_cons, if_neg hq, zero_add]
        exact ih hnd.2 hrest

theorem rrfScoreFrom_eq_sum (w : ℚ) (rrf_k : ℕ) :
    ∀ (ids : List VectorID) (i : ℕ) (x : VectorID),
      rrfScoreFrom ids w rrf_k i x =
        (Finset.range ids.length).sum fun j =>
          if ids[j]? = some x then w / ((rrf_k + (i + j) + 1 : ℕ) : ℚ) else 0 := by
  intro ids
  induction ids with
  | nil => intro i x; simp [rrfScoreFrom]
  | cons id rest ih =>
      intro i x
      simp only [rrfScoreFrom, List.length_cons]
      rw [Finset.sum_range_succ']
      have hhead :
          (if (id :: rest)[0]? = some x then w / ((rrf_k + (i + 0) + 1 : ℕ) : ℚ) else 0)
            = if x = id then rrfContribution w rrf_k i else 0 := by
        by_cases h : x = id
        · simp only [h, List.getElem?_cons_zero, if_pos rfl, rrfContribution, if_true]
          rw [div_eq_mul_inv, one_div]
          ring
        · have h' : ¬ id = x := fun hh => h hh.symm
          simp [h', h]
      have htail :
          ((Finset.range rest.length).sum fun j =>
            if (id :: rest)[j + 1]? = some x then w / ((rrf_k + (i + (j + 1)) + 1 : ℕ) : ℚ) else 0)
            = rrfScoreFrom rest w rrf_k (i + 1) x := by
        rw [ih (i + 1) x]
        apply Finset.sum_congr rfl
        intro j _
        have : i + (j + 1) = i + 1 + j := by omega
        simp [this]
      rw [hhead, htail]
      ring

theorem rrfLe_trans (a b c : VectorID × ℚ) :
    (fun p q : VectorID × ℚ => decide (q.2 ≤ p.2)) a b →
    (fun p q : VectorID × ℚ => decide (q.2 ≤ p.2)) b c →
    (fun p q : VectorID × ℚ => decide (q.2 ≤ p.2)) a c := by
  simp only [decide_eq_true_eq]
  exact fun h1 h2 => le_trans h2 h1

theorem rrfLe_total (a b : VectorID × ℚ) :
    ((fun p q : VectorID × ℚ => decide (q.2 ≤ p.2)) a b
      || (fun p q : VectorID × ℚ => decide (q.2 ≤ p.2)) b a) = true := by
  simpa using le_total b.2 a.2

theorem scoreOf_rrfEntries (V T : List VectorID) (wv wt : ℚ) (top_k : ℕ) (x : VectorID) :
    scoreOf (rrfEntries V T wv wt top_k) x = rrfScore V T wv wt (top_k * 2) x := by
  simp only [rrfEntries]
  rw [scoreOf_rrfAccum, scoreOf_rrfAccum, scoreOf_nil,
    rrfScoreFrom_eq_sum, rrfScoreFrom_eq_sum, rrfScore]
  simp

theorem rrfEntries_nodup (V T : List VectorID) (wv wt : ℚ) (top_k : ℕ) :
    ((rrfEntries V T wv wt top_k).map Prod.fst).Nodup := by
  simp only [rrfEntries]
  exact rrfAccum_nodup _ _ _ _ _ (rrfAccum_nodup _ _ _ _ _ (by simp))

/-- C7: for every pair of id lists, weights and `top_k`, with `order` any
iteration order of the accumulated `HashMap`: the function uses
`rrf_k = top_k * 2`; the fused score of every map entry equals the
specification's per-rank sum `rrfScore`; the map's ids are exactly the ids
occurring in the two input lists; the returned ids are in descending fused
score; and at most `top_k` ids are returned. -/
theorem rrf_score_sort_take (V T : List VectorID) (wv wt : ℚ) (top_k : ℕ)
    (order : List (VectorID × ℚ))
    (hperm : order.Perm (rrfEntries V T wv wt top_k)) :
    (reciprocal_rank_fusion order top_k).length ≤ top_k
    ∧ (∀ p ∈ order, p.2 = rrfScore V T wv wt (top_k * 2) p.1)
    ∧ (∀ x, x ∈ order.map Prod.fst ↔ x ∈ V ∨ x ∈ T)
    ∧ (reciprocal_rank_fusion order top_k).Pairwise
        (fun a b => rrfScore V T wv wt (top_k * 2) b ≤ rrfScore V T wv wt (top_k * 2) a) := by
  have hscore : ∀ p ∈ order, p.2 = rrfScore V T wv wt (top_k * 2) p.1 := by
    intro p hp
    have hpe : p ∈ rrfEntries V T wv wt top_k := hperm.subset hp
    rw [← scoreOf_rrfEntries V T wv wt top_k p.1]
    exact (scoreOf_eq_of_mem (rrfEntries_nodup V T wv wt top_k) hpe).symm
  refine ⟨?_, hscore, ?_, ?_⟩
  · simp only [reciprocal_rank_fusion, List.length_map, List.length_take]
    exact min_le_left _ _
  · intro x
    have hkeys : x ∈ order.map Prod.fst ↔ x ∈ (rrfEntries V T wv wt top_k).map Prod.fst :=
      (hperm.map Prod.fst).mem_iff
    rw [hkeys]
    simp only [rrfEntries]
    rw [mem_rrfAccum_map_fst, mem_rrfAccum_map_fst]
    simp
  · have hsorted :
        (order.mergeSort (fun p q : VectorID × ℚ => decide (q.2 ≤ p.2))).Pairwise
          (fun p q : VectorID × ℚ => decide (q.2 ≤ p.2)) :=
      List.sorted_mergeSort rrfLe_trans rrfLe_total order
    have htake : ((order.mergeSort (fun p q : VectorID × ℚ => decide (q.2 ≤ p.2))).take
        top_k).Pairwise (fun p q : VectorID × ℚ => decide (q.2 ≤ p.2)) :=
      hsorted.sublist (List.take_sublist _ _)
    rw [reciprocal_rank_fusion, List.pairwise_map]
    refine htake.imp_of_mem ?_
    intro p q hp hq hle
    have hmemp : p ∈ order :=
      (List.mergeSort_perm order _).subset ((List.take_sublist _ _).subset hp)
    have hmemq : q ∈ order :=
      (List.mergeSort_perm order _).subset ((List.take_sublist _ _).subset hq)
    have := decide_eq_true_eq.mp hle
    rw [hscore p hmemp, hscore q hmemq] at this
    exact this

/-- Witness for `rrf_score_sort_take` at the specification's worked RRF
example: `V = [10, 20, 30]`, `T = [20, 40, 10]`, unit weights, `top_k = 3`,
iterating the map in insertion order. -/
theorem rrf_score_sort_take_witness :
    (reciprocal_rank_fusion (rrfEntries [10, 20, 30] [20, 40, 10] 1 1 3) 3).length ≤ 3
    ∧ (∀ p ∈ rrfEntries [10, 20, 30] [20, 40, 10] 1 1 3,
        p.2 = rrfScore [10, 20, 30] [20, 40, 10] 1 1 (3 * 2) p.1)
    ∧ (∀ x, x ∈ (rrfEntries [10, 20, 30] [20, 40, 10] 1 1 3).map Prod.fst ↔
        x ∈ [10, 20, 30] ∨ x ∈ [20, 40, 10])
    ∧ (reciprocal_rank_fusion (rrfEntries [10, 20, 30] [20, 40, 10] 1 1 3) 3).Pairwise
        (fun a b => rrfScore [10, 20, 30] [20, 40, 10] 1 1 (3 * 2) b ≤
          rrfScore [10, 20, 30] [20, 40, 10] 1 1 (3 * 2) a) :=
  rrf_score_sort_take [10, 20, 30] [20, 40, 10] 1 1 3 _ (List.Perm.refl _)

/-- C3 (counterexample): with `V = [1]`, `T = [2]`, unit weights and
`top_k = 2`, ids 1 and 2 tie with fused score `1/5`; `[(2, 1/5), (1, 1/5)]`
is a legitimate iteration order of the accumulated `HashMap` (its iteration
order is unspecified), and sorting it returns `[2, 1]`, not the
first-appearance order `[1, 2]` required by the claim. -/
theorem rrf_tie_break_cex :
    [((2 : VectorID), (1 : ℚ)/5), (1, 1/5)].Perm (rrfEntries [1] [2] 1 1 2)
    ∧ rrfScore [1] [2] 1 1 (2 * 2) 1 = rrfScore [1] [2] 1 1 (2 * 2) 2
    ∧ reciprocal_rank_fusion [((2 : VectorID), (1 : ℚ)/5), (1, 1/5)] 2 = [2, 1]
    ∧ reciprocal_rank_fusion [((2 : VectorID), (1 : ℚ)/5), (1, 1/5)] 2 ≠ [1, 2] := by
  have hentries : rrfEntries [1] [2] 1 1 2 = [(1, 1/5), (2, 1/5)] := by
    simp only [rrfEntries, rrfAccum, rrfUpsert, rrfContribution]
    norm_num
  have hsorted :
      List.Pairwise (fun p q : VectorID × ℚ => decide (q.2 ≤ p.2))
        [((2 : VectorID), (1 : ℚ)/5), (1, 1/5)] := by
    simp [List.pairwise_cons]
  have hfused : reciprocal_rank_fusion [((2 : VectorID), (1 : ℚ)/5), (1, 1/5)] 2 = [2, 1] := by
    rw [reciprocal_rank_fusion, List.mergeSort_of_sorted hsorted]
    rfl
  refine ⟨?_, ?_, hfused, ?_⟩
  · rw [hentries]
    exact List.Perm.swap _ _ _
  · simp only [rrfScore]
    norm_num
  · rw [hfused]
    decide

/-- C3 (amended): ids with equal fused score are returned in the iterated
entry order of the score map (`sort_by` is stable), not necessarily in
first-appearance order: any tied pair that is a sublist of the iteration
order `order` is still a sublist of the full ranking
`reciprocal_rank_fusion order order.length`. -/
theorem rrf_tie_break_follows_iteration_order (order : List (VectorID × ℚ))
    (a b : VectorID × ℚ) (htie : a.2 = b.2) (hsub : List.Sublist [a, b] order) :
    List.Sublist [a.1, b.1] (reciprocal_rank_fusion order order.length) := by
  have h1 : List.Sublist [a, b] (order.mergeSort (fun p q : VectorID × ℚ => decide (q.2 ≤ p.2))) :=
    List.pair_sublist_mergeSort rrfLe_trans rrfLe_total (by simp [htie]) hsub
  have hlen : (order.mergeSort (fun p q : VectorID × ℚ => decide (q.2 ≤ p.2))).length
      = order.length := (List.mergeSort_perm order _).length_eq
  rw [reciprocal_rank_fusion, List.take_of_length_le (le_of_eq hlen)]
  exact h1.map Prod.fst

/-- Witness for `rrf_tie_break_follows_iteration_order`: two tied entries
keep their iteration order in the ranking. -/
theorem rrf_tie_break_follows_iteration_order_witness :
    List.Sublist [(5 : VectorID), 7]
      (reciprocal_rank_fusion [((5 : VectorID), (1 : ℚ)), (7, 1)] 2) :=
  rrf_tie_break_follows_iteration_order [((5 : VectorID), (1 : ℚ)), (7, 1)]
    (5, 1) (7, 1) rfl (List.Sublist.refl _)

/-! ### IEEE-754 special values in the RRF accumulation (src/rag/mod.rs,
`reciprocal_rank_fusion`, and the weights `1.0, 1.0` from `hybird_search`)

For the claim about `partial_cmp(...).unwrap()` the `f32` scores are
modelled exactly: a float is a rational, a signed infinity, or NaN.
Rounding of finite results is not modelled (it changes neither NaN-ness nor
signs), but overflow to infinity is: the largest finite `f32` is
`f32Max = (2^24 - 1) * 2^104`, and an exact magnitude of at least
`f32Over = f32Max + 2^103` (the round-to-nearest-even threshold of the top
binade) rounds to an infinity.  The `usize → f32` cast of the denominator
is value-exact in the model (its rounding keeps the value finite and ≥ 1,
which is all the theorems use). -/

def f32Max : ℚ := (2 ^ 24 - 1) * 2 ^ 104

def f32Over : ℚ := f32Max + 2 ^ 103

inductive Flt where
  | finite (q : ℚ)
  | inf (pos : Bool)
  | nan
deriving DecidableEq

def Flt.isNaN : Flt → Bool
  | nan => true
  | _ => false

def Flt.isFinite : Flt → Bool
  | finite _ => true
  | _ => false

/-- Round an exact finite result: overflow becomes a signed infinity. -/
def fltOfRat (q : ℚ) : Flt :=
  if f32Over ≤ q then .inf true
  else if q ≤ -f32Over then .inf false
  else .finite q

def Flt.add : Flt → Flt → Flt
  | nan, _ => nan
  | _, nan => nan
  | inf s, inf t => if s = t then inf s else nan
  | inf s, finite _ => inf s
  | finite _, inf t => inf t
  | finite a, finite b => fltOfRat (a + b)

def Flt.mul : Flt → Flt → Flt
  | nan, _ => nan
  | _, nan => nan
  | inf s, inf t => inf (s == t)
  | inf s, finite b => if b = 0 then nan else inf (s == decide (0 < b))
  | finite a, inf t => if a = 0 then nan else inf (t == decide (0 < a))
  | finite a, finite b => fltOfRat (a * b)

def Flt.div : Flt → Flt → Flt
  | nan, _ => nan
  | _, nan => nan
  | inf _, inf _ => nan
  | inf s, finite b => inf (s == decide (0 ≤ b))
  | finite _, inf _ => finite 0
  | finite a, finite b =>
      if b = 0 then (if a = 0 then nan else inf (decide (0 ≤ a)))
      else fltOfRat (a / b)

/-- `f32::partial_cmp`: `none` exactly when an operand is NaN. -/
def fltCmp : Flt → Flt → Option Ordering
  | .nan, _ => none
  | _, .nan => none
  | .inf s, .inf t => some (if s = t then .eq else if t then .lt else .gt)
  | .inf s, .finite _ => some (if s then .gt else .lt)
  | .finite _, .inf t => some (if t then .lt else .gt)
  | .finite a, .finite b => some (if a < b then .lt else if a = b then .eq else .gt)

/-- `(1.0 / ((rrf_k + index + 1) as f32)) * weight` in the float model. -/
def rrfContributionF (weight : Flt) (rrf_k index : ℕ) : Flt :=
  Flt.mul (Flt.div (.finite 1) (.finite ((rrf_k + index + 1 : ℕ) : ℚ))) weight

/-- `*map.entry(item).or_default() += x` in the float model: the default is
`0.0`, so a fresh entry stores `0.0 + x`. -/
def rrfUpsertF : List (VectorID × Flt) → VectorID → Flt → List (VectorID × Flt)
  | [], k, x => [(k, Flt.add (.finite 0) x)]
  | p :: rest, k, x =>
      if p.1 = k then (k, Flt.add p.2 x) :: rest else p :: rrfUpsertF rest k x

def rrfAccumF : List (VectorID × Flt) → List VectorID → Flt → ℕ → ℕ → List (VectorID × Flt)
  | m, [], _, _, _ => m
  | m, id :: rest, w, rrf_k, index =>
      rrfAccumF (rrfUpsertF m id (rrfContributionF w rrf_k index)) rest w rrf_k (index + 1)

/-- The accumulated score map of `reciprocal_rank_fusion` in the float
model, `rrf_k = top_k * 2`. -/
def rrfEntriesF (vector_search_ids text_search_ids : List VectorID)
    (vector_search_weight text_search_weight : Flt) (top_k : ℕ) : List (VectorID × Flt) :=
  let rrf_k := top_k * 2
  rrfAccumF (rrfAccumF [] vector_search_ids vector_search_weight rrf_k 0)
    text_search_ids text_search_weight rrf_k 0

/-- A value the accumulation can produce from non-negative finite weights:
non-negative finite, or positive infinity.  Such values are never NaN. -/
def fltGood (f : Flt) : Prop :=
  (∃ q : ℚ, f = .finite q ∧ 0 ≤ q) ∨ f = .inf true

theorem f32Over_pos : (0 : ℚ) < f32Over := by norm_num [f32Over, f32Max]

theorem fltOfRat_good {q : ℚ} (hq : 0 ≤ q) : fltGood (fltOfRat q) := by
  unfold fltOfRat
  by_cases h1 : f32Over ≤ q
  · rw [if_pos h1]
    exact Or.inr rfl
  · rw [if_neg h1, if_neg (by nlinarith [f32Over_pos])]
    exact Or.inl ⟨q, rfl, hq⟩

theorem fltGood_add {a b : Flt} (ha : fltGood a) (hb : fltGood b) :
    fltGood (Flt.add a b) := by
  rcases ha with ⟨qa, rfl, hqa⟩ | rfl <;> rcases hb with ⟨qb, rfl, hqb⟩ | rfl
  · exact fltOfRat_good (by linarith)
  · exact Or.inr rfl
  · exact Or.inr rfl
  · simp only [Flt.add, if_pos rfl]
    exact Or.inr rfl

theorem fltGood_contribution {w : ℚ} (hw : 0 ≤ w) (rrf_k index : ℕ) :
    fltGood (rrfContributionF (.finite w) rrf_k index) := by
  unfold rrfContributionF
  have hn : (0 : ℚ) < ((rrf_k + index + 1 : ℕ) : ℚ) := by
    exact_mod_cast Nat.succ_pos (rrf_k + index)
  have hdiv : Flt.div (.finite 1) (.finite ((rrf_k + index + 1 : ℕ) : ℚ))
      = .finite (1 / ((rrf_k + index + 1 : ℕ) : ℚ)) := by
    simp only [Flt.div, if_neg (ne_of_gt hn)]
    unfold fltOfRat
    have h1 : (1 : ℚ) / ((rrf_k + index + 1 : ℕ) : ℚ) ≤ 1 := by
      rw [div_le_one hn]
      exact_mod_cast Nat.succ_le_of_lt (Nat.lt_succ_of_le (Nat.le_add_left _ _))
    have h0 : (0 : ℚ) ≤ 1 / ((rrf_k + index + 1 : ℕ) : ℚ) := by positivity
    have hgt : (1 : ℚ) < f32Over := by norm_num [f32Over, f32Max]
    rw [if_neg (by linarith), if_neg (by linarith [f32Over_pos])]
  rw [hdiv]
  simp only [Flt.mul]
  exact fltOfRat_good (by positivity)

theorem fltGood_rrfUpsertF {m : List (VectorID × Flt)} {x : Flt}
    (hm : ∀ p ∈ m, fltGood p.2) (hx : fltGood x) (k : VectorID) :
    ∀ p ∈ rrfUpsertF m k x, fltGood p.2 := by
  induction m with
  | nil =>
      intro p hp
      rcases List.mem_singleton.mp hp with rfl
      exact fltGood_add (Or.inl ⟨0, rfl, le_refl 0⟩) hx
  | cons q rest ih =>
      intro p hp
      by_cases hqk : q.1 = k
      · simp only [rrfUpsertF, if_pos hqk] at hp
        rcases List.mem_cons.mp hp with rfl | hrest
        · exact fltGood_add (hm q (List.mem_cons_self q rest)) hx
        · exact hm p (List.mem_cons_of_mem q hrest)
      · simp only [rrfUpsertF, if_neg hqk] at hp
        rcases List.mem_cons.mp hp with rfl | hrest
        · exact hm p (List.mem_cons_self p rest)
        · exact ih (fun r hr => hm r (List.mem_cons_of_mem q hr)) p hrest

theorem fltGood_rrfAccumF {w : ℚ} (hw : 0 ≤ w) (ids : List VectorID) (rrf_k : ℕ) :
    ∀ (m : List (VectorID × Flt)) (i : ℕ), (∀ p ∈ m, fltGood p.2) →
      ∀ p ∈ rrfAccumF m ids (.finite w) rrf_k i, fltGood p.2 := by
  induction ids with
  | nil =>
      intro m i hm
      simpa [rrfAccumF] using hm
  | cons id rest ih =>
      intro m i hm
      exact ih _ _ (fltGood_rrfUpsertF hm (fltGood_contribution hw rrf_k i) id)

theorem fltGood_not_nan {f : Flt} (h : fltGood f) : f.isNaN = false := by
  rcases h with ⟨q, rfl, _⟩ | rfl <;> rfl

theorem fltCmp_isSome {f g : Flt} (hf : fltGood f) (hg : fltGood g) :
    (fltCmp f g).isSome := by
  rcases hf with ⟨qf, rfl, _⟩ | rfl <;> rcases hg with ⟨qg, rfl, _⟩ | rfl <;> rfl

/-- C10 (amended): for all input lists and all finite non-negative weights,
every accumulated fused score is a non-NaN float — each contribution has
denominator `rrf_k + index + 1 ≥ 1` and is non-negative, and sums of such
values never produce NaN (though they can overflow to `+∞`) — hence
`partial_cmp(...).unwrap()` in the sort comparator, applied to any two
accumulated scores, never panics. -/
theorem rrf_scores_never_nan (V T : List VectorID) (wv wt : ℚ) (top_k : ℕ)
    (hwv : 0 ≤ wv) (hwt : 0 ≤ wt) :
    (∀ p ∈ rrfEntriesF V T (.finite wv) (.finite wt) top_k, p.2.isNaN = false)
    ∧ (∀ p ∈ rrfEntriesF V T (.finite wv) (.finite wt) top_k,
        ∀ q ∈ rrfEntriesF V T (.finite wv) (.finite wt) top_k,
          (fltCmp p.2 q.2).isSome) := by
  have hgood : ∀ p ∈ rrfEntriesF V T (.finite wv) (.finite wt) top_k, fltGood p.2 := by
    simp only [rrfEntriesF]
    exact fltGood_rrfAccumF hwt T _ _ _
      (fltGood_rrfAccumF hwv V _ _ _ (by intro p hp; cases hp))
  exact ⟨fun p hp => fltGood_not_nan (hgood p hp),
    fun p hp q hq => fltCmp_isSome (hgood p hp) (hgood q hq)⟩

/-- Witness for `rrf_scores_never_nan` at the weights `1.0, 1.0` that
`hybird_search` passes. -/
theorem rrf_scores_never_nan_witness :
    (∀ p ∈ rrfEntriesF [0, 1] [1, 2] (.finite 1) (.finite 1) 2, p.2.isNaN = false)
    ∧ (∀ p ∈ rrfEntriesF [0, 1] [1, 2] (.finite 1) (.finite 1) 2,
        ∀ q ∈ rrfEntriesF [0, 1] [1, 2] (.finite 1) (.finite 1) 2,
          (fltCmp p.2 q.2).isSome) :=
  rrf_scores_never_nan [0, 1] [1, 2] 1 1 2 (by norm_num) (by norm_num)

/-- C10 (counterexample to "finite"): with the finite non-negative weight
`f32::MAX` and `top_k = 0`, an id ranked twice in the vector list
accumulates `MAX + MAX/2`, which overflows to `+∞` — the accumulated score
is not finite (it is still not NaN, so the unwrap claim survives). -/
theorem rrf_score_overflow_cex :
    rrfEntriesF [0, 0] [] (.finite f32Max) (.finite 1) 0 = [(0, .inf true)]
    ∧ (0 : ℚ) ≤ f32Max
    ∧ (Flt.inf true).isFinite = false := by
  refine ⟨?_, by norm_num [f32Max], rfl⟩
  have hc0 : rrfContributionF (.finite f32Max) 0 0 = .finite f32Max := by
    simp only [rrfContributionF, Flt.div, Flt.mul]
    norm_num [fltOfRat, f32Over, f32Max]
  have hc1 : rrfContributionF (.finite f32Max) 0 1 = .finite (f32Max / 2) := by
    simp only [rrfContributionF, Flt.div, Flt.mul]
    norm_num [fltOfRat, f32Over, f32Max]
  have hstep1 : rrfUpsertF [] 0 (.finite f32Max) = [(0, .finite f32Max)] := by
    simp only [rrfUpsertF, Flt.add]
    norm_num [fltOfRat, f32Over, f32Max]
  have hstep2 : rrfUpsertF [(0, .finite f32Max)] 0 (.finite (f32Max / 2))
      = [(0, .inf true)] := by
    simp only [rrfUpsertF, if_pos rfl, Flt.add]
    norm_num [fltOfRat, f32Over, f32Max]
  simp only [rrfEntriesF, rrfAccumF, hc0, hc1, hstep1, hstep2]

/-! ### Vector search filtering (src/rag/mod.rs, `Rag::vector_search`)

`vector_search` splits the query, embeds the sub-queries, runs
`self.hnsw.parallel_search(&embeddings, top_k, 30)` and keeps, from each
per-sub-query hit list, the ids of hits passing the score filter
(`if v.distance < min_score { return None; } Some(v.d_id)`).  The HNSW
library is an external collaborator; per the specification's contract for
it (§4.4), results are `(id, similarity)` pairs — the `distance` field of a
`Neighbour` holds the cosine similarity, higher is better.  The embedding
and search stages are abstracted by passing their per-sub-query result
lists `results` directly. -/

structure Neighbour where
  d_id : VectorID
  distance : ℚ
deriving DecidableEq

/-- The `flat_map`/`filter_map` tail of `Rag::vector_search`. -/
def vector_search_filter (results : List (List Neighbour)) (min_score : ℚ) : List VectorID :=
  (results.map fun list =>
    list.filterMap fun v => if v.distance < min_score then none else some v.d_id).flatten

/-- C4: `vector_search` returns exactly the ids of HNSW hits whose
similarity is at least `min_score` (low-similarity hits are excluded),
concatenated per sub-query. -/
theorem vector_search_min_score_filter (results : List (List Neighbour)) (min_score : ℚ) :
    ∀ id, id ∈ vector_search_filter results min_score ↔
      ∃ l ∈ results, ∃ v ∈ l, v.d_id = id ∧ min_score ≤ v.distance := by
  intro id
  unfold vector_search_filter
  rw [List.mem_flatten]
  constructor
  · rintro ⟨lmapped, hlm, hid⟩
    rw [List.mem_map] at hlm
    obtain ⟨l, hl, rfl⟩ := hlm
    rw [List.mem_filterMap] at hid
    obtain ⟨v, hv, hsome⟩ := hid
    by_cases hlt : v.distance < min_score
    · rw [if_pos hlt] at hsome
      cases hsome
    · rw [if_neg hlt] at hsome
      exact ⟨l, hl, v, hv, Option.some.inj hsome, not_lt.mp hlt⟩
  · rintro ⟨l, hl, v, hv, rfl, hge⟩
    refine ⟨_, List.mem_map_of_mem _ hl, ?_⟩
    rw [List.mem_filterMap]
    exact ⟨v, hv, by rw [if_neg (not_lt.mpr hge)]⟩

/-! ### Embedding pipeline (src/rag/mod.rs, `Rag::create_embeddings`)

`create_embeddings` walks `texts.chunks(self.model.max_concurrent_chunks())`
(successive contiguous slices of that size, the last possibly shorter;
`chunks` panics on size 0, so the theorems assume `0 < B`) and awaits
`self.client.embeddings(chunk_data)` for each batch in order, one at a
time, extending `output` with each batch's vectors.  The embedding client
is an external collaborator, modelled as a function `embedF` returning
`Except`; vectors are `List ℚ`. -/

def chunksOfGo {α : Type} (B : ℕ) : ℕ → List α → List (List α)
  | _, [] => []
  | fuel + 1, a :: l => ((a :: l).take B) :: chunksOfGo B fuel ((a :: l).drop B)
  | 0, a :: l => [a :: l]

/-- Rust `slice::chunks(B)`: contiguous batches of size `B`, the last one
possibly shorter.  The fuel (the list length suffices when `0 < B`) makes
the recursion structural. -/
def chunksOf {α : Type} (B : ℕ) (l : List α) : List (List α) :=
  chunksOfGo B l.length l

/-- `Rag::create_embeddings`: sequentially submit each batch to the client
and concatenate the outputs in order. -/
def create_embeddings (embedF : List String → Except String (List (List ℚ)))
    (max_concurrent_chunks : ℕ) (texts : List String) : Except String (List (List ℚ)) :=
  (chunksOf max_concurrent_chunks texts).foldlM
    (fun output batch => do
      let chunk_output ← embedF batch
      pure (output ++ chunk_output)) []

theorem chunksOfGo_flatten {α : Type} {B : ℕ} (hB : 0 < B) :
    ∀ (fuel : ℕ) (l : List α), l.length ≤ fuel → (chunksOfGo B fuel l).flatten = l := by
  intro fuel
  induction fuel with
  | zero =>
      intro l hl
      rw [List.length_eq_zero.mp (Nat.le_zero.mp hl)]
      rfl
  | succ fuel ih =>
      intro l hl
      cases l with
      | nil => rfl
      | cons a l' =>
          rw [chunksOfGo, List.flatten_cons, ih _ ?_, List.take_append_drop]
          have : ((a :: l').drop B).length = (a :: l').length - B := List.length_drop B _
          simp only [List.length_cons] at hl this
          omega

theorem chunksOfGo_mem {α : Type} {B : ℕ} (hB : 0 < B) :
    ∀ (fuel : ℕ) (l : List α), l.length ≤ fuel →
      ∀ c ∈ chunksOfGo B fuel l, c ≠ [] ∧ c.length ≤ B := by
  intro fuel
  induction fuel with
  | zero =>
      intro l hl c hc
      rw [List.length_eq_zero.mp (Nat.le_zero.mp hl)] at hc
      cases hc
  | succ fuel ih =>
      intro l hl c hc
      cases l with
      | nil => cases hc
      | cons a l' =>
          rw [chunksOfGo] at hc
          rcases List.mem_cons.mp hc with rfl | htail
          · constructor
            · simp [List.take_eq_nil_iff, Nat.pos_iff_ne_zero.mp hB]
            · simp [List.length_take]
          · refine ih _ ?_ c htail
            have : ((a :: l').drop B).length = (a :: l').length - B := List.length_drop B _
            simp only [List.length_cons] at hl this
            omega

theorem chunksOfGo_dropLast {α : Type} {B : ℕ} (hB : 0 < B) :
    ∀ (fuel : ℕ) (l : List α), l.length ≤ fuel →
      ∀ c ∈ (chunksOfGo B fuel l).dropLast, c.length = B := by
  intro fuel
  induction fuel with
  | zero =>
      intro l hl c hc
      rw [List.length_eq_zero.mp (Nat.le_zero.mp hl)] at hc
      cases hc
  | succ fuel ih =>
      intro l hl c hc
      cases l with
      | nil => cases hc
      | cons a l' =>
          rw [chunksOfGo] at hc
          cases hrest : chunksOfGo B fuel ((a :: l').drop B) with
          | nil =>
              rw [hrest] at hc
              cases hc
          | cons r rs =>
              rw [hrest, List.dropLast_cons_of_ne_nil (by simp)] at hc
              rcases List.mem_cons.mp hc with rfl | htail
              · have hne : (a :: l').drop B ≠ [] := by
                  intro hnil
                  rw [hnil] at hrest
                  have : chunksOfGo B fuel ([] : List α) = [] := by
                    cases fuel <;> rfl
                  rw [this] at hrest
                  cases hrest
                have hlen : B < (a :: l').length := by
                  by_contra hle
                  push_neg at hle
                  exact hne (List.drop_eq_nil_of_le hle)
                simp only [List.length_take, List.length_cons] at hlen ⊢
                omega
              · rw [← hrest] at htail
                refine ih _ ?_ c htail
                have : ((a :: l').drop B).length = (a :: l').length - B := List.length_drop B _
                simp only [List.length_cons] at hl this
                omega

theorem foldlM_embed_ok (embedF : List String → Except String (List (List ℚ))) :
    ∀ (batches : List (List String)) (acc res : List (List ℚ)),
      batches.foldlM (fun output batch => do
        let chunk_output ← embedF batch
        pure (output ++ chunk_output)) acc = .ok res →
      ∃ outs : List (List (List ℚ)),
        List.Forall₂ (fun batch out => embedF batch = .ok out) batches outs
        ∧ res = acc ++ outs.flatten := by
  intro batches
  induction batches with
  | nil =>
      intro acc res h
      simp only [List.foldlM] at h
      cases h
      exact ⟨[], List.Forall₂.nil, by simp⟩
  | cons b bs ih =>
      intro acc res h
      simp only [List.foldlM] at h ih
      cases hb : embedF b with
      | error e =>
          rw [hb] at h
          simp [Bind.bind, Except.bind] at h
      | ok out =>
          rw [hb] at h
          simp only [Bind.bind, Except.bind, pure, Except.pure] at h
          obtain ⟨outs, hall, hres⟩ := ih (acc ++ out) res h
          exact ⟨out :: outs, List.Forall₂.cons hb hall, by simp [hres]⟩

theorem flatten_length_eq_of_forall₂ (embedF : List String → Except String (List (List ℚ)))
    (hlen : ∀ batch out, embedF batch = .ok out → out.length = batch.length) :
    ∀ {batches : List (List String)} {outs : List (List (List ℚ))},
      List.Forall₂ (fun batch out => embedF batch = .ok out) batches outs →
      outs.flatten.length = batches.flatten.length := by
  intro batches outs hall
  induction hall with
  | nil => rfl
  | cons hhead _ ih =>
      simp only [List.flatten_cons, List.length_append, ih]
      rw [hlen _ _ hhead]

/-- C9: assuming the embedding client returns one vector per text of each
submitted batch, `create_embeddings` partitions the texts into contiguous
batches of size `B = model.max_concurrent_chunks()` (every batch except
possibly the last has size exactly `B`, none is empty, and they
concatenate back to the input), submits the batches sequentially in order,
and returns the per-batch outputs concatenated in that order — as many
vectors as input texts. -/
theorem create_embeddings_spec (embedF : List String → Except String (List (List ℚ)))
    (B : ℕ) (texts : List String) (result : List (List ℚ)) (hB : 0 < B)
    (hlen : ∀ batch out, embedF batch = .ok out → out.length = batch.length)
    (hok : create_embeddings embedF B texts = .ok result) :
    result.length = texts.length
    ∧ (chunksOf B texts).flatten = texts
    ∧ (∀ c ∈ chunksOf B texts, c ≠ [] ∧ c.length ≤ B)
    ∧ (∀ c ∈ (chunksOf B texts).dropLast, c.length = B)
    ∧ ∃ outs : List (List (List ℚ)),
        List.Forall₂ (fun batch out => embedF batch = .ok out) (chunksOf B texts) outs
        ∧ result = outs.flatten := by
  obtain ⟨outs, hall, hres⟩ := foldlM_embed_ok embedF _ _ _ hok
  have hflat : (chunksOf B texts).flatten = texts :=
    chunksOfGo_flatten hB texts.length texts (le_refl _)
  refine ⟨?_, hflat, ?_, ?_, outs, hall, by simpa using hres⟩
  · rw [hres]
    simp only [List.nil_append]
    rw [flatten_length_eq_of_forall₂ embedF hlen hall, hflat]
  · exact chunksOfGo_mem hB texts.length texts (le_refl _)
  · exact chunksOfGo_dropLast hB texts.length texts (le_refl _)

/-- Witness for `create_embeddings_spec`: three texts in batches of two,
with a client returning one vector per text. -/
theorem create_embeddings_spec_witness :
    ([[(0 : ℚ)], [0], [0]] : List (List ℚ)).length = (["a", "b", "c"] : List String).length
    ∧ (chunksOf 2 ["a", "b", "c"]).flatten = ["a", "b", "c"]
    ∧ (∀ c ∈ chunksOf 2 ["a", "b", "c"], c ≠ [] ∧ c.length ≤ 2)
    ∧ (∀ c ∈ (chunksOf 2 ["a", "b", "c"]).dropLast, c.length = 2)
    ∧ ∃ outs : List (List (List ℚ)),
        List.Forall₂
          (fun batch out =>
            (Except.ok (batch.map fun _ => ([0] : List ℚ)) : Except String (List (List ℚ)))
              = .ok out)
          (chunksOf 2 ["a", "b", "c"]) outs
        ∧ [[(0 : ℚ)], [0], [0]] = outs.flatten :=
  create_embeddings_spec
    (fun batch => Except.ok (batch.map fun _ => ([0] : List ℚ))) 2 ["a", "b", "c"]
    [[0], [0], [0]] (by norm_num)
    (by
      intro batch out h
      cases h
      simp)
    rfl

/-! ### The RAG store (src/rag/mod.rs, `RagData`, `RagFile`, `RagDocument`,
`Rag::create`, `Rag::add_paths`)

`RagData.vectors` is an `IndexMap<VectorID, Vec<f32>>`: an insertion-ordered
map whose `extend` keeps the position of an existing key and replaces its
value, and appends fresh keys in order.  It is embedded as an association
list with exactly that update rule.

The HNSW index is an external library value; per the specification (§4.4)
its structure is determined, for fixed construction parameters, by the
sequence of `(vector, id)` insertions, so `build_hnsw` is embedded as that
insertion sequence (`self.vectors.iter().map(|(k, v)| (v, *k))`, inserted
in order).

`BM25`, its tokenizer and scorer live in src/rag/bm25.rs, which is not part
of the sources provided; per the specification (§4.3) the index is
determined by the corpus `[(id, text)]` it is built from and the `k1`, `b`
parameters, so it is modelled from the spec as exactly those data.
`build_bm25` itself (the corpus enumeration) is in src/rag/mod.rs and is
embedded from the source. -/

structure RagDocument where
  page_content : String
  metadata : List (String × String)
deriving DecidableEq

structure RagFile where
  path : String
  documents : List RagDocument
deriving DecidableEq

structure RagData where
  model : String
  chunk_size : ℕ
  chunk_overlap : ℕ
  files : List RagFile
  vectors : List (VectorID × List ℚ)
deriving DecidableEq

/-- Modelled from the spec: the BM25 index (src/rag/bm25.rs is not among
the provided sources).  Per §4.3 it is a deterministic function of the
corpus `[(id, text)]` and the parameters `k1 = 1.2`, `b = 0.75`, so the
model keeps exactly those data. -/
structure BM25 where
  corpus : List (VectorID × String)
  k1 : ℚ
  b : ℚ
deriving DecidableEq

def BM25.new (corpus : List (VectorID × String)) : BM25 :=
  { corpus := corpus, k1 := mkRat 6 5, b := mkRat 3 4 }

/-- `IndexMap::insert` inside `extend`: replace the value of an existing
key in place, append a fresh key. -/
def indexMapInsert (m : List (VectorID × List ℚ)) (k : VectorID) (v : List ℚ) :
    List (VectorID × List ℚ) :=
  if m.any fun p => p.1 = k then
    m.map fun p => if p.1 = k then (k, v) else p
  else m ++ [(k, v)]

def indexMapExtend (m : List (VectorID × List ℚ)) (kvs : List (VectorID × List ℚ)) :
    List (VectorID × List ℚ) :=
  kvs.foldl (fun acc p => indexMapInsert acc p.1 p.2) m

def RagData.new (model : String) (chunk_size chunk_overlap : ℕ) : RagData :=
  { model := model, chunk_size := chunk_size, chunk_overlap := chunk_overlap,
    files := [], vectors := [] }

/-- `RagData::add`: `self.files.extend(files);
self.vectors.extend(vector_ids.into_iter().zip(embeddings));`. -/
def RagData.add (d : RagData) (files : List RagFile) (vector_ids : List VectorID)
    (embeddings : List (List ℚ)) : RagData :=
  { d with
    files := d.files ++ files,
    vectors := indexMapExtend d.vectors (vector_ids.zip embeddings) }

/-- `RagData::build_hnsw`, embedded as the insertion sequence that
determines the library index:
`self.vectors.iter().map(|(k, v)| (v, *k))`, inserted in order. -/
def RagData.build_hnsw (d : RagData) : List (List ℚ × VectorID) :=
  d.vectors.map fun p => (p.2, p.1)

/-- `RagData::build_bm25`: enumerate `(file_index, document_index)` over
the current files and build the BM25 corpus. -/
def RagData.build_bm25 (d : RagData) : BM25 :=
  BM25.new ((d.files.enum.map fun fp =>
    fp.2.documents.enum.map fun dp =>
      (combine_vector_id fp.1 dp.1, dp.2.page_content)).flatten)

structure Rag where
  data : RagData
  hnsw : List (List ℚ × VectorID)
  bm25 : BM25
deriving DecidableEq

/-- `Rag::create` (minus config and client resolution): derive both
indices from the data. -/
def Rag.create (data : RagData) : Rag :=
  { data := data, hnsw := data.build_hnsw, bm25 := data.build_bm25 }

/-- The id/text enumeration of `Rag::add_paths`
(`for (file_index, file) in rag_files.iter().enumerate() { for
(document_index, document) in file.documents.iter().enumerate() { ... } }`):
note `file_index` counts from 0 over the *newly loaded* files only. -/
def ragFilesIdTexts (rag_files : List RagFile) : List (VectorID × String) :=
  (rag_files.enum.map fun fp =>
    fp.2.documents.enum.map fun dp =>
      (combine_vector_id fp.1 dp.1, dp.2.page_content)).flatten

/-- The loading stage for one file: the loader and splitter
(src/rag/loader.rs and src/rag/splitter.rs, external to the provided
sources) are abstracted as `loadSplitF`, producing the split chunk
documents of a file or a load error. -/
def loadRagFile (loadSplitF : String → Except String (List RagDocument)) (path : String) :
    Except String RagFile :=
  (loadSplitF path).map fun docs => { path := path, documents := docs }

/-- The loading loop of `Rag::add_paths` (`for path in file_paths { ... }`
with `?` on each load): load and split each enumerated file in order,
aborting at the first failure. -/
def loadStage (loadSplitF : String → Except String (List RagDocument)) :
    List String → Except String (List RagFile)
  | [] => .ok []
  | path :: rest =>
      match loadRagFile loadSplitF path with
      | .error e => .error e
      | .ok file =>
          match loadStage loadSplitF rest with
          | .error e => .error e
          | .ok files => .ok (file :: files)

/-- The listing loop of `Rag::add_paths`: each input path is skipped
exactly when some already-stored `RagFile` has that path; otherwise its
enumerated files are appended. -/
def listStage (rag : Rag) (paths : List String) (listFilesF : String → List String) :
    List String :=
  paths.foldl
    (fun acc p =>
      if rag.data.files.any fun f => f.path = p then acc else acc ++ listFilesF p) []

/-- The mutation tail of `Rag::add_paths`
(`self.data.add(rag_files, vector_ids, embeddings);
self.hnsw = self.data.build_hnsw();` — note `self.bm25` is not touched). -/
def Rag.ingest (rag : Rag) (rag_files : List RagFile) (embeddings : List (List ℚ)) : Rag :=
  let data := rag.data.add rag_files ((ragFilesIdTexts rag_files).map Prod.fst) embeddings
  { data := data, hnsw := data.build_hnsw, bm25 := rag.bm25 }

/-- `Rag::add_paths`, with its external collaborators as parameters:
`listFilesF` (modelled from the spec: `parse_glob` + `list_files` from
src/utils, not among the provided sources — maps one absolutized input
path to the enumerated matching file paths), `loadSplitF` (loader +
splitter), `embedF` (embedding client) and `B = model.max_concurrent_chunks()`.

On any error the function returns it, and the `&mut self` store is left as
it was (mirroring the source, where `self.data.add`, the `self.hnsw`
rebuild — and nothing touching `self.bm25` — all sit after the last
fallible expression).  Input paths are taken as already absolute
(`Path::absolutize` is the identity on absolute paths). -/
def Rag.add_paths (rag : Rag) (paths : List String)
    (listFilesF : String → List String)
    (loadSplitF : String → Except String (List RagDocument))
    (embedF : List String → Except String (List (List ℚ)))
    (B : ℕ) : Rag × Except String Unit :=
  match loadStage loadSplitF (listStage rag paths listFilesF) with
  | .error e => (rag, .error e)
  | .ok rag_files =>
    if rag_files.isEmpty then (rag, .ok ()) else
    match create_embeddings embedF B ((ragFilesIdTexts rag_files).map Prod.snd) with
    | .error e => (rag, .error e)
    | .ok embeddings => (rag.ingest rag_files embeddings, .ok ())

/-- The `(file_index, chunk_index)` pairs reachable from `files`, as packed
ids. -/
def reachableIds (d : RagData) : List VectorID :=
  (d.files.enum.map fun fp =>
    fp.2.documents.enum.map fun dp => combine_vector_id fp.1 dp.1).flatten

/-- The store invariant of the specification (§3, §8): the key set of
`vectors` equals the set of ids reachable from `files`. -/
def ragInvariant (d : RagData) : Prop :=
  (d.vectors.map Prod.fst).toFinset = (reachableIds d).toFinset

/-- C8: if any step of `add_paths` fails (a loader error for some file, or
an embedding-client error on any batch), `add_paths` returns the error and
the store — `files`, `vectors`, the HNSW index (and the BM25 index) — is
exactly its pre-operation value. -/
theorem add_paths_error_leaves_store_unchanged (rag : Rag) (paths : List String)
    (listFilesF : String → List String)
    (loadSplitF : String → Except String (List RagDocument))
    (embedF : List String → Except String (List (List ℚ)))
    (B : ℕ) (e : String)
    (herr : (rag.add_paths paths listFilesF loadSplitF embedF B).2 = .error e) :
    (rag.add_paths paths listFilesF loadSplitF embedF B).1 = rag := by
  unfold Rag.add_paths at herr ⊢
  revert herr
  cases loadStage loadSplitF (listStage rag paths listFilesF) with
  | error e2 => intro _; rfl
  | ok rag_files =>
      by_cases hemp : rag_files.isEmpty
      · simp only [hemp, if_true]
        intro herr
        cases herr
      · simp only [hemp, Bool.false_eq_true, if_false]
        cases create_embeddings embedF B ((ragFilesIdTexts rag_files).map Prod.snd) with
        | error e2 => intro _; rfl
        | ok embeddings =>
            intro herr
            cases herr

/-- Concrete scenario used in several theorems below: every path enumerates
to itself (a plain file). -/
def exListFiles : String → List String := fun p => [p]

/-- A loader/splitter producing one chunk per file. -/
def exLoad : String → Except String (List RagDocument) :=
  fun _ => .ok [{ page_content := "hello", metadata := [] }]

/-- An embedding client returning one 1-dimensional vector per text. -/
def exEmbed : List String → Except String (List (List ℚ)) :=
  fun texts => .ok (texts.map fun _ => [1])

/-- The store after ingesting `/f1` into a fresh empty store. -/
def exRag1 : Rag :=
  ((Rag.create (RagData.new "m" 10 2)).add_paths ["/f1"] exListFiles exLoad exEmbed 10).1

/-- The store after then ingesting a second file `/f2`. -/
def exRag2 : Rag :=
  (exRag1.add_paths ["/f2"] exListFiles exLoad exEmbed 10).1

/-- Witness for `add_paths_error_leaves_store_unchanged`: a failing loader
aborts the ingest and the fresh store is returned untouched. -/
theorem add_paths_error_leaves_store_unchanged_witness :
    ((Rag.create (RagData.new "m" 10 2)).add_paths ["/f1"] exListFiles
      (fun _ => .error "boom") exEmbed 10).2 = .error "boom"
    ∧ ((Rag.create (RagData.new "m" 10 2)).add_paths ["/f1"] exListFiles
      (fun _ => .error "boom") exEmbed 10).1 = Rag.create (RagData.new "m" 10 2) :=
  ⟨rfl, add_paths_error_leaves_store_unchanged (Rag.create (RagData.new "m" 10 2))
    ["/f1"] exListFiles (fun _ => .error "boom") exEmbed 10 "boom" rfl⟩

theorem add_paths_skip_of_known (rag : Rag) (p : String)
    (listFilesF : String → List String)
    (loadSplitF : String → Except String (List RagDocument))
    (embedF : List String → Except String (List (List ℚ)))
    (B : ℕ)
    (hmem : (rag.data.files.any fun f => f.path = p) = true) :
    rag.add_paths [p] listFilesF loadSplitF embedF B = (rag, .ok ()) := by
  unfold Rag.add_paths listStage
  simp only [List.foldl_cons, List.foldl_nil, hmem, if_true]
  rfl

/-- C5 (amended): a second `add_paths([p])` is a no-op for a path `p` whose
enumeration is `[p]` itself (a plain file): a successful first call leaves
a `RagFile` with path `p` in the store, so the second call's skip check
fires and the store is returned unchanged with success.  (For inputs whose
enumeration differs from `p` — directories, globs — the skip check compares
`p` only against stored *file* paths, and the claim fails; see the
counterexample.) -/
theorem add_paths_idempotent_plain_file (rag rag1 : Rag) (p : String)
    (listFilesF : String → List String)
    (loadSplitF : String → Except String (List RagDocument))
    (embedF : List String → Except String (List (List ℚ)))
    (B : ℕ)
    (hlist : listFilesF p = [p])
    (h1 : rag.add_paths [p] listFilesF loadSplitF embedF B = (rag1, .ok ())) :
    rag1.add_paths [p] listFilesF loadSplitF embedF B = (rag1, .ok ()) := by
  have hp : (rag1.data.files.any fun f => f.path = p) = true := by
    by_cases hmem : (rag.data.files.any fun f => f.path = p) = true
    · have hskip := add_paths_skip_of_known rag p listFilesF loadSplitF embedF B hmem
      rw [hskip] at h1
      have : rag = rag1 := congrArg Prod.fst h1
      rw [← this]
      exact hmem
    · unfold Rag.add_paths listStage at h1
      rw [List.foldl_cons, List.foldl_nil, if_neg hmem, List.nil_append, hlist] at h1
      cases hload : loadSplitF p with
      | error e =>
          rw [show loadStage loadSplitF [p] = .error e by
            simp [loadStage, loadRagFile, hload, Except.map]] at h1
          have := congrArg Prod.snd h1
          simp at this
      | ok docs =>
          rw [show loadStage loadSplitF [p]
              = .ok [{ path := p, documents := docs }] by
            simp [loadStage, loadRagFile, hload, Except.map]] at h1
          simp only [List.isEmpty_cons, Bool.false_eq_true, if_false] at h1
          cases hce : create_embeddings embedF B
              ((ragFilesIdTexts [{ path := p, documents := docs }]).map Prod.snd) with
          | error e =>
              rw [hce] at h1
              have := congrArg Prod.snd h1
              simp at this
          | ok embeddings =>
              rw [hce] at h1
              have hr : rag.ingest [{ path := p, documents := docs }] embeddings = rag1 :=
                congrArg Prod.fst h1
              rw [← hr]
              simp [Rag.ingest, RagData.add, List.any_append]
  exact add_paths_skip_of_known rag1 p listFilesF loadSplitF embedF B hp

/-- Witness for `add_paths_idempotent_plain_file`: re-adding the plain file
`/f1` after a successful ingest returns the store unchanged. -/
theorem add_paths_idempotent_plain_file_witness :
    exRag1.add_paths ["/f1"] exListFiles exLoad exEmbed 10 = (exRag1, .ok ()) :=
  add_paths_idempotent_plain_file (Rag.create (RagData.new "m" 10 2)) exRag1 "/f1"
    exListFiles exLoad exEmbed 10 rfl rfl

/-- A directory-style enumeration: the input `/d` enumerates to the single
file `/d/a` inside it. -/
def dirListFiles : String → List String := fun p => if p = "/d" then ["/d/a"] else [p]

/-- The store after ingesting the directory `/d` into a fresh empty store. -/
def dirRag1 : Rag :=
  ((Rag.create (RagData.new "m" 10 2)).add_paths ["/d"] dirListFiles exLoad exEmbed 10).1

/-- C5 (counterexample): `add_paths(["/d"])` twice is not a no-op when `/d`
is a directory: the store records the file path `/d/a`, the skip check
compares the input `/d` against stored file paths only, so the second call
re-ingests `/d/a` and the store changes (two files instead of one). -/
theorem add_paths_directory_not_idempotent_cex :
    ((Rag.create (RagData.new "m" 10 2)).add_paths ["/d"] dirListFiles exLoad exEmbed 10).2
      = .ok ()
    ∧ (dirRag1.add_paths ["/d"] dirListFiles exLoad exEmbed 10).2 = .ok ()
    ∧ dirRag1.data.files.length = 1
    ∧ (dirRag1.add_paths ["/d"] dirListFiles exLoad exEmbed 10).1.data.files.length = 2
    ∧ (dirRag1.add_paths ["/d"] dirListFiles exLoad exEmbed 10).1 ≠ dirRag1 := by
  refine ⟨rfl, rfl, rfl, rfl, ?_⟩
  intro h
  have hl : (dirRag1.add_paths ["/d"] dirListFiles exLoad exEmbed 10).1.data.files.length
      = dirRag1.data.files.length := congrArg (fun r => r.data.files.length) h
  rw [show (dirRag1.add_paths ["/d"] dirListFiles exLoad exEmbed 10).1.data.files.length
      = 2 from rfl,
    show dirRag1.data.files.length = 1 from rfl] at hl
  cases hl

/-- C1 (failing input): the key-set invariant holds after the first ingest
but is broken by a second `add_paths` on the now non-empty store: the code
enumerates the new files' `file_index` from 0 instead of offsetting by the
files already stored, so the second file's chunk is given the already-used
id `combine_vector_id 0 0` (overwriting that entry) and the reachable pair
`(1, 0)` never receives a vectors entry. -/
theorem add_paths_second_ingest_breaks_invariant :
    ragInvariant exRag1.data
    ∧ (exRag1.add_paths ["/f2"] exListFiles exLoad exEmbed 10).2 = .ok ()
    ∧ exRag2.data.vectors.map Prod.fst = [combine_vector_id 0 0]
    ∧ reachableIds exRag2.data = [combine_vector_id 0 0, combine_vector_id 1 0]
    ∧ ¬ ragInvariant exRag2.data := by
  refine ⟨?_, rfl, rfl, rfl, ?_⟩
  · show (exRag1.data.vectors.map Prod.fst).toFinset = (reachableIds exRag1.data).toFinset
    rfl
  · show ¬ (exRag2.data.vectors.map Prod.fst).toFinset = (reachableIds exRag2.data).toFinset
    intro h
    have h2 : combine_vector_id 1 0 ∈ (exRag2.data.vectors.map Prod.fst).toFinset := by
      rw [h]
      decide
    revert h2
    decide

/-- C2 (failing input): after a successful `add_paths` on a fresh store the
HNSW index does equal `build_hnsw()` of the post-ingest data, but the BM25
index is never rebuilt: it stays the index built by `Rag::create` from the
pre-ingest (empty) store, with an empty corpus, instead of
`build_bm25()` of the post-ingest data whose corpus holds the new chunk. -/
theorem add_paths_leaves_bm25_stale :
    exRag1.hnsw = exRag1.data.build_hnsw
    ∧ exRag1.bm25.corpus = []
    ∧ (exRag1.data.build_bm25).corpus = [(combine_vector_id 0 0, "hello")]
    ∧ exRag1.bm25 ≠ exRag1.data.build_bm25 :=
  ⟨rfl, rfl, rfl, fun h =>
    absurd (congrArg (fun b => b.corpus.length) h) (by decide)⟩
